import Mathlib

/-!
Verification development for the segmented-video validation and delivery
pipeline of the coursati backend.  The definitions below are shallow
embeddings of the JavaScript source: the segment address resolver, the
GridFS mirror keys, the per-host rate limiter, the probe engine, the
segment validator's fast path, the playlist synthesizer's duration
computation, the validation job engine's bookkeeping, and the segment
token signer/verifier.  Machine integers are modelled as Nat/Int, JS
numbers that carry fractional parts (durations) as rationals, and JS
`undefined` as `Option.none`.
-/

namespace Coursati

/-! ## Segment address resolver

Embeds the shared URL-index resolution logic of `buildUrlForIndex`
(validator), `proxySegment` and `download` in the video controller:
split the URL on `/`, take the final component, find all decimal digit
runs, pick the run with the largest numeric value (the first such run on
ties), and splice in the target index left-zero-padded to the original
run's width.  When no digit run exists, fall back to inserting
`_<index>` via a JS `String.replace` of the extension match, or append
at the end when the filename has no extension. -/

/-- Numeric value of a digit run, as JS `parseInt` computes it for a
string of decimal digits. -/
def natOfDigits (ds : List Char) : Nat :=
  ds.foldl (fun n c => n * 10 + (c.toNat - '0'.toNat)) 0

/-- Worker for `digitRuns`: walks the characters accumulating the
current run (start position, reversed digits). -/
def digitRunsGo : List Char → Nat → Option (Nat × List Char) → List (Nat × List Char)
  | [], _, none => []
  | [], _, some (st, acc) => [(st, acc.reverse)]
  | c :: cs, i, none =>
      if c.isDigit then digitRunsGo cs (i + 1) (some (i, [c]))
      else digitRunsGo cs (i + 1) none
  | c :: cs, i, some (st, acc) =>
      if c.isDigit then digitRunsGo cs (i + 1) (some (st, c :: acc))
      else (st, acc.reverse) :: digitRunsGo cs (i + 1) none

/-- All maximal decimal digit runs of a character list together with
their start positions, in order of occurrence; embeds the JS
`last.matchAll` of a digit-run pattern. -/
def digitRuns (s : List Char) : List (Nat × List Char) :=
  digitRunsGo s 0 none

/-- One step of the JS selection loop: replace the current best run
only when the candidate's numeric value is strictly larger. -/
def bestRunStep (best m : Nat × List Char) : Nat × List Char :=
  if natOfDigits m.2 > natOfDigits best.2 then m else best

/-- Embeds the JS selection loop `for (const m of matches) if
(parseInt(m) > parseInt(best)) best = m` seeded with the first match:
keeps the first run on ties, replaces only on a strictly larger value. -/
def pickBestRun : List (Nat × List Char) → Option (Nat × List Char)
  | [] => none
  | r :: rs => some (rs.foldl bestRunStep r)

/-- JS `String.prototype.padStart(width, '0')`: pad on the left with
zeros up to `width`; a string already at least `width` long is
returned unchanged. -/
def padStartZeros (s : List Char) (width : Nat) : List Char :=
  List.replicate (width - s.length) '0' ++ s

/-- The extension suffix of a filename as matched by the JS pattern
used in the fallback branch: a final dot followed by one or more
non-dot characters.  Returns the matched suffix (dot included). -/
def extSuffix (last : List Char) : Option (List Char) :=
  let nd := last.reverse.takeWhile (fun c => c ≠ '.')
  if nd.length = 0 then none
  else if last.reverse.get? nd.length = some '.' then some ('.' :: nd.reverse)
  else none

/-- First index at which `pat` occurs as a contiguous sublist,
scanning from position `i`; embeds the search underlying JS
`String.prototype.replace` with a string pattern. -/
def findSubstrGo (pat : List Char) : List Char → Nat → Option Nat
  | [], i => if pat.isPrefixOf ([] : List Char) then some i else none
  | c :: t, i => if pat.isPrefixOf (c :: t) then some i else findSubstrGo pat t (i + 1)

/-- JS `GetSubstitution` for a string pattern (no capture groups):
expands dollar escapes in the replacement text.  `Char.ofNat 96` is the
backquote character and `Char.ofNat 39` the single quote. -/
def dollarSubst (matched before after : List Char) : List Char → List Char
  | [] => []
  | c :: t =>
    if c = '$' then
      match t with
      | [] => ['$']
      | c2 :: t2 =>
        if c2 = '$' then '$' :: dollarSubst matched before after t2
        else if c2 = '&' then matched ++ dollarSubst matched before after t2
        else if c2 = Char.ofNat 96 then before ++ dollarSubst matched before after t2
        else if c2 = Char.ofNat 39 then after ++ dollarSubst matched before after t2
        else '$' :: c2 :: dollarSubst matched before after t2
    else c :: dollarSubst matched before after t

/-- JS `String.prototype.replace` with a string pattern: replaces the
first occurrence of `pat`, running dollar substitution on `rep`. -/
def jsReplaceFirst (hay pat rep : List Char) : List Char :=
  match findSubstrGo pat hay 0 with
  | none => hay
  | some i =>
      hay.take i ++
      dollarSubst pat (hay.take i) (hay.drop (i + pat.length)) rep ++
      hay.drop (i + pat.length)

/-- Core of the resolver, on the final path component `last` with the
target index already rendered to characters (`String(segmentNumber)` in
the source): splice the padded index over the best digit run, else fall
back to the extension-replace insertion, else append at the end. -/
def resolveSegmentFilename (last : List Char) (idxStr : List Char) : List Char :=
  match pickBestRun (digitRuns last) with
  | some (pos, digits) =>
      last.take pos ++ padStartZeros idxStr digits.length ++ last.drop (pos + digits.length)
  | none =>
      match extSuffix last with
      | some ext => jsReplaceFirst last ext ('_' :: idxStr ++ ext)
      | none => last ++ '_' :: idxStr

/-- Resolver applied to a filename, with a numeric target index
rendered in decimal as JS `String(idx)` does. -/
def buildFilenameForIndex (last : String) (idx : Nat) : String :=
  String.mk (resolveSegmentFilename last.data (Nat.repr idx).data)

/-- JS `url.split('/')` on the character list: splits at every slash,
keeping empty components, and yields one (possibly empty) component
for the empty input. -/
def splitOnSlash : List Char → List (List Char)
  | [] => [[]]
  | c :: t =>
      match splitOnSlash t with
      | [] => [[]]
      | h :: r => if c = '/' then [] :: h :: r else (c :: h) :: r

/-- JS `parts.join('/')`. -/
def joinWithSlash : List (List Char) → List Char
  | [] => []
  | [h] => h
  | h :: h2 :: t => h ++ '/' :: joinWithSlash (h2 :: t)

/-- Full-URL resolver `buildUrlForIndex` of the validator (the same
logic is inlined in `proxySegment` and `download`): split on `/`,
rewrite the final component, and rejoin. -/
def buildUrlForIndex (url : String) (idx : Nat) : String :=
  let parts := splitOnSlash url.data
  let newLast := resolveSegmentFilename (parts.getLastD []) (Nat.repr idx).data
  String.mk (joinWithSlash (parts.dropLast ++ [newLast]))

/-- Final path component of a URL, as the resolver extracts it. -/
def lastUrlComponent (url : String) : String :=
  String.mk ((splitOnSlash url.data).getLastD [])

/-- Modelled from the spec's words for claim C3 (the specification
reading of the resolver): identical digit-run selection, but the
no-digit fallback appends `_<index>` immediately before the file
extension, i.e. at the extension's own position at the end of the
name, rather than at the first occurrence of the extension substring. -/
def specResolveFilename (last : List Char) (idxStr : List Char) : List Char :=
  match pickBestRun (digitRuns last) with
  | some (pos, digits) =>
      last.take pos ++ padStartZeros idxStr digits.length ++ last.drop (pos + digits.length)
  | none =>
      match extSuffix last with
      | some ext => last.take (last.length - ext.length) ++ '_' :: idxStr ++ ext
      | none => last ++ '_' :: idxStr

/-- Spec reading of the resolver at the String level. -/
def specResolveFilenameStr (last : String) (idx : Nat) : String :=
  String.mk (specResolveFilename last.data (Nat.repr idx).data)

/-! ## Mirror keys: GridFS upload key vs. proxy lookup key -/

/-- Key format of `uploadStreamFromStream` in `utils/gridfs.js`:
`videos/<videoId>/<quality>/segment-<segmentNumber>.ts`. -/
def mirrorSegmentKey (videoId quality segmentNumber : String) : String :=
  "videos/" ++ videoId ++ "/" ++ quality ++ "/segment-" ++ segmentNumber ++ ".ts"

/-- Key under which the validator's full scan mirrors segment `i`:
`uploadStreamFromStream` is called with the numeric index `i`. -/
def validatorMirrorKey (videoId quality : String) (i : Nat) : String :=
  mirrorSegmentKey videoId quality (Nat.repr i)

/-- Filename by which `proxySegment` looks a segment up in GridFS:
`videos/<videoId>/<quality>/<newLast>` where `newLast` is the resolved
upstream filename for the requested segment number. -/
def proxyGridLookupKey (videoId quality lastSegmentUrl segParam : String) : String :=
  "videos/" ++ videoId ++ "/" ++ quality ++ "/" ++
    String.mk (resolveSegmentFilename (lastUrlComponent lastSegmentUrl).data segParam.data)

/-! ## Host admission controller (`utils/hostRateLimiter.js`) -/

/-- Drop entries older than `now - windowMs` from the front of the
(ascending) timestamp list; embeds `purgeOld`. -/
def purgeOld (entries : List Int) (now windowMs : Int) : List Int :=
  entries.dropWhile (fun t => t < now - windowMs)

/-- Result of one `waitForTurn` call: how long the caller slept and
the updated per-host window. -/
structure WaitResult where
  waitMs : Int
  entries : List Int
deriving DecidableEq, Repr

/-- Embeds `waitForTurn` under a deterministic clock in which sleeping
for `d` milliseconds advances `now` by exactly `d`: purge, admit
immediately if below `max`, otherwise wait
`min (max 50 (oldest + windowMs - now)) 30000` once and record the
timestamp unconditionally after the single wait. -/
def waitForTurn (entries0 : List Int) (now windowMs maxReq : Int) : WaitResult :=
  let entries := purgeOld entries0 now windowMs
  if (entries.length : Int) < maxReq then ⟨0, entries ++ [now]⟩
  else
    let oldest := entries.headD 0
    let delay := max 50 (oldest + windowMs - now)
    let capped := min delay 30000
    let now2 := now + capped
    ⟨capped, purgeOld entries now2 windowMs ++ [now2]⟩

/-! ## Probe engine (`utils/videoStatusChecker.js`) -/

/-- Outcome of one HEAD request: an HTTP response with a status, or a
rejection (network error), which the source swallows via `.catch`. -/
inductive HeadOut
  | resp (status : Nat)
  | err
deriving DecidableEq, Repr

/-- Outcome of one ranged GET request: an HTTP response with a status
(`validateStatus: null` means no status throws), or a rejection whose
error object carries an optional response status and a message. -/
inductive GetOut
  | resp (status : Nat)
  | err (respStatus : Option Nat) (msg : String)
deriving DecidableEq, Repr

/-- Result record resolved by `probeUrl`.  A missing field of the JS
object is `none`: the early HTTP-failure return carries neither
`method` nor `error`. -/
structure ProbeResult where
  ok : Bool
  statusCode : Option Nat
  method : Option String
  error : Option String
deriving DecidableEq, Repr

/-- Backoff before the next attempt: exponential base `250 * 2 ^
attempt` plus jitter, capped at 10 seconds. -/
def probeDelay (jitter attempt : Nat) : Nat :=
  min 10000 (250 * 2 ^ attempt + jitter)

/-- Worker for `probeUrlModel`.  Returns the resolved record, the
number of attempts actually performed, and the list of backoff delays
slept.  `lastErr` threads the last GET rejection exactly as the source
does; a HEAD rejection is swallowed and never reaches `lastErr`. -/
def probeGo (headOut : Nat → HeadOut) (getOut : Nat → GetOut) (jit : Nat → Nat) :
    Nat → Option (Option Nat × String) → Nat → ProbeResult × Nat × List Nat
  | attempt, lastErr, 0 =>
      (⟨false,
        (match lastErr with | some (some s, _) => some s | _ => none),
        none,
        lastErr.map Prod.snd⟩, attempt, [])
  | attempt, lastErr, fuel + 1 =>
      match headOut attempt with
      | HeadOut.resp s =>
          if s < 400 then (⟨true, some s, some "HEAD", none⟩, attempt + 1, [])
          else
            match getOut attempt with
            | GetOut.resp s2 =>
                if s2 < 400 then (⟨true, some s2, some "GET", none⟩, attempt + 1, [])
                else (⟨false, some s, none, none⟩, attempt + 1, [])
            | GetOut.err _ _ =>
                (⟨false, some s, none, none⟩, attempt + 1, [])
      | HeadOut.err =>
          match getOut attempt with
          | GetOut.resp s2 =>
              if s2 < 400 then (⟨true, some s2, some "GET", none⟩, attempt + 1, [])
              else
                let d := probeDelay (jit attempt) attempt
                let rec' := probeGo headOut getOut jit (attempt + 1) lastErr fuel
                (rec'.1, rec'.2.1, d :: rec'.2.2)
          | GetOut.err st msg =>
              let d := probeDelay (jit attempt) attempt
              let rec' := probeGo headOut getOut jit (attempt + 1) (some (st, msg)) fuel
              (rec'.1, rec'.2.1, d :: rec'.2.2)

/-- Embeds `probeUrl`: HEAD first, ranged GET fallback, success on any
status below 400; when the HEAD yielded an HTTP status (necessarily
at least 400 at that point) the call returns a failure record at once;
only when neither request produced a usable response does it back off
and retry, up to `maxAttempts` attempts. -/
def probeUrlModel (headOut : Nat → HeadOut) (getOut : Nat → GetOut) (jit : Nat → Nat)
    (maxAttempts : Nat) : ProbeResult × Nat × List Nat :=
  probeGo headOut getOut jit 0 none maxAttempts

/-! ## Segment validator fast path (`validateVideoSegments`) -/

/-- Outcome of a single axios call inside `fetchWithRetries` (no
`validateStatus: null` here, so any status of 400 or above rejects). -/
inductive FetchOutcome
  | ok (status : Nat)
  | httpErr (status : Nat)
  | netErr
deriving DecidableEq, Repr

/-- Error thrown by `fetchWithRetries`: the last rejection, carrying
its HTTP status when the rejection came from a response. -/
inductive FetchErr
  | http (status : Nat)
  | net
deriving DecidableEq, Repr

/-- Result of a fetch that may fail. -/
inductive FetchResult
  | ok (status : Nat)
  | error (e : FetchErr)
deriving DecidableEq, Repr

/-- Embeds `fetchWithRetries`: try up to `fuel` attempts; a 404 or 410
rejection is rethrown immediately (terminal for the caller), any other
rejection is retried until the attempts are exhausted, and the last
error is thrown then. -/
def fetchWithRetries (outcomes : Nat → FetchOutcome) : Nat → Nat → FetchResult
  | _, 0 => .error .net
  | attempt, fuel + 1 =>
      match outcomes attempt with
      | .ok s => .ok s
      | .httpErr s =>
          if s = 410 ∨ s = 404 then .error (.http s)
          else if fuel = 0 then .error (.http s)
          else fetchWithRetries outcomes (attempt + 1) fuel
      | .netErr =>
          if fuel = 0 then .error .net
          else fetchWithRetries outcomes (attempt + 1) fuel

/-- The quick last-segment check: HEAD via `fetchWithRetries` with two
attempts, then a GET fallback with two attempts on any HEAD error; the
error that escapes is the GET's. -/
def fastPathProbe (headOut getOut : Nat → FetchOutcome) : FetchResult :=
  match fetchWithRetries headOut 0 2 with
  | .ok s => .ok s
  | .error _ => fetchWithRetries getOut 0 2

/-- Error that `validateVideoSegments` throws for a quality: a
terminal last-segment failure (HTTP 404 or 410), or a plain
last-segment failure thrown when `allowFullCheck` is false. -/
inductive QualityError
  | terminal (status : Nat)
  | lastSegmentFailed
deriving DecidableEq, Repr

/-- Per-segment record produced for a quality; `segment = none` is the
synthetic `'last'` fast-path record. -/
structure SegRec where
  segment : Option Nat
  ok : Bool
  status : Option Nat
deriving DecidableEq, Repr

/-- Result of validating one quality. -/
inductive QualityOutcome
  | ok (records : List SegRec)
  | error (e : QualityError)
deriving DecidableEq, Repr

/-- One per-segment check of the full scan: HEAD with two attempts,
GET fallback with two attempts; every failure is caught and recorded
as a failed segment record (errors never escape the batch). -/
def checkSegment (segHead segGet : Nat → Nat → FetchOutcome) (i : Nat) : SegRec :=
  match (match fetchWithRetries (segHead i) 0 2 with
         | .ok s => FetchResult.ok s
         | .error _ => fetchWithRetries (segGet i) 0 2) with
  | .ok s => ⟨some i, true, some s⟩
  | .error e => ⟨some i, false, match e with | .http s => some s | .net => none⟩

/-- Validation of a single quality together with the list of segment
indices actually probed by the fallback full scan.  Embeds the
per-quality body of `validateVideoSegments`: fast path first; on a
terminal fast-path status (410 or 404) throw a terminal error at once;
on any other fast-path failure throw when `allowFullCheck` is false,
else run the per-segment scan over indices `1..segCount`. -/
def validateQualityModel (headOut getOut : Nat → FetchOutcome) (allowFullCheck : Bool)
    (segCount : Nat) (segHead segGet : Nat → Nat → FetchOutcome) :
    QualityOutcome × List Nat :=
  match fastPathProbe headOut getOut with
  | .ok s => (.ok [⟨none, true, some s⟩], [])
  | .error e =>
      match e with
      | .http s =>
          if s = 410 ∨ s = 404 then (.error (.terminal s), [])
          else if !allowFullCheck then (.error .lastSegmentFailed, [])
          else
            let segs := (List.range segCount).map (· + 1)
            (.ok (segs.map (checkSegment segHead segGet)), segs)
      | .net =>
          if !allowFullCheck then (.error .lastSegmentFailed, [])
          else
            let segs := (List.range segCount).map (· + 1)
            (.ok (segs.map (checkSegment segHead segGet)), segs)

/-- Worker for the job engine's per-video retry loop: run attempts
while `attempt < maxAttempts`; success stops, a terminal error stops
retrying immediately, any other error moves to the next attempt.
Returns whether the video validated and how many attempts ran. -/
def runAttemptsGo (attemptResult : Nat → QualityOutcome) : Nat → Nat → Bool × Nat
  | attempt, 0 => (false, attempt)
  | attempt, fuel + 1 =>
      match attemptResult attempt with
      | .ok _ => (true, attempt + 1)
      | .error e =>
          match e with
          | .terminal _ => (false, attempt + 1)
          | .lastSegmentFailed => runAttemptsGo attemptResult (attempt + 1) fuel

/-- The job engine's per-video retry loop (`maxAttempts = 2` in the
source), abstracting over the outcome of each attempt. -/
def runVideoAttempts (attemptResult : Nat → QualityOutcome) (maxAttempts : Nat) : Bool × Nat :=
  runAttemptsGo attemptResult 0 maxAttempts

/-! ## Playlist synthesizer (`playlist` handler)

Durations are JS numbers; the embedding uses exact rationals, with
`Number(x.toFixed(3))` modelled as decimal rounding to three places
half-up, `round3`. -/

/-- Decimal rounding to three places, half-up: the model of
`Number(x.toFixed(3))`. -/
def round3 (x : ℚ) : ℚ := (⌊x * 1000 + 1 / 2⌋ : ℚ) / 1000

/-- Embeds the EXTINF computation of the `playlist` handler: when a
positive stored duration and a positive segment count are known, every
segment gets the rounded even division, the whole list is summed, and
the final entry absorbs the rounded drift whenever that drift exceeds
half a millisecond; otherwise one-second placeholders are emitted. -/
def segmentDurations (vidDuration : ℚ) (segmentCount : Nat) : List ℚ :=
  if 0 < vidDuration ∧ 0 < segmentCount then
    let base := List.replicate segmentCount (round3 (vidDuration / segmentCount))
    let diff := round3 (vidDuration - base.sum)
    if 1 / 2000 < |diff| then
      base.set (segmentCount - 1) (round3 (base.getD (segmentCount - 1) 0 + diff))
    else base
  else List.replicate (max 1 segmentCount) 1

/-- Embeds `Math.ceil(Math.max(...segmentDurations, 1))`: the
EXT-X-TARGETDURATION value emitted by the handler. -/
def targetDuration (durs : List ℚ) : ℤ := ⌈durs.foldl max 1⌉

/-- The longest entry of a duration list (the claim's "longest
individual segment duration"), with no floor applied. -/
def longestSegment : List ℚ → ℚ
  | [] => 0
  | d :: ds => ds.foldl max d

/-- The EXTINF values actually emitted by the playlist loop: each line
reads `const dur = segmentDurations[i - 1] || 1`, so a computed
duration of exactly 0 (the only falsy rational here) is emitted as 1. -/
def emittedDurations (vidDuration : ℚ) (segmentCount : Nat) : List ℚ :=
  (segmentDurations vidDuration segmentCount).map (fun d => if d = 0 then 1 else d)

/-! ## Validation job engine (video controller job manager)

A job's per-video result entry; JS `undefined` in the `ok` field (the
in-progress placeholder) is `none`. -/

/-- One entry of a job's `videos` array. -/
structure VideoResult where
  videoId : String
  ok : Option Bool
deriving DecidableEq, Repr

/-- Embeds the resume-time processed set of `resumeValidationJob`:
video ids of entries whose `ok` field is defined (`typeof p.ok !==
'undefined'`). -/
def processedSet (videos : List VideoResult) : List String :=
  (videos.filter (fun p => p.ok.isSome)).map (fun p => p.videoId)

/-- Whether the resumed iteration skips the catalog video `vid`:
membership of its id in the processed set. -/
def resumeSkips (videos : List VideoResult) (vid : String) : Bool :=
  (processedSet videos).contains vid

/-- Job status values of the `ValidationJob` schema. -/
inductive JobStatus
  | queued
  | running
  | finished
  | failed
  | stopped
deriving DecidableEq, Repr

/-- In-memory job record as created by `createJobRecord`. -/
structure JobRecord where
  id : String
  status : JobStatus
  paused : Bool
  startedAt : Option Nat
  finishedAt : Option Nat
  totalVideos : Nat
  processedVideos : Nat
  currentVideo : Option String
  videos : List VideoResult
  error : Option String
deriving DecidableEq, Repr

/-- Embeds `createJobRecord`: a fresh queued, unpaused job with empty
progress. -/
def createJobRecord (newId : String) : JobRecord :=
  ⟨newId, .queued, false, none, none, 0, 0, none, [], none⟩

/-- Embeds `hasRunningValidation`: some job in the in-memory registry
has status `running`. -/
def hasRunningValidation (registry : List (String × JobRecord)) : Bool :=
  registry.any (fun kv => decide (kv.2.status = JobStatus.running))

/-- Observable outcome of one `startValidateAllVideos` request: the
HTTP status answered, the job id handed back (when any), and the
registry afterwards. -/
structure StartOutcome where
  httpStatus : Nat
  jobId : Option String
  registry : List (String × JobRecord)
deriving DecidableEq, Repr

/-- Embeds the synchronous part of `startValidateAllVideos`: reject
with 409 when a running job exists, touching nothing; otherwise create
and register a fresh job record and answer its id. -/
def startValidateAllVideos (registry : List (String × JobRecord)) (newId : String) :
    StartOutcome :=
  if hasRunningValidation registry then ⟨409, none, registry⟩
  else ⟨200, some newId, registry ++ [(newId, createJobRecord newId)]⟩

/-- Embeds the placeholder insertion step of the job loop: push an
entry with undefined `ok`, then set `processedVideos` to the length of
the `videos` array.  Returns the new array and the new
`processedVideos`. -/
def insertPlaceholder (videos : List VideoResult) (vid : String) :
    List VideoResult × Nat :=
  let vids := videos ++ [VideoResult.mk vid none]
  (vids, vids.length)

/-- Embeds the result recording step of the job loop: replace the
entry found by `findIndex` (or append when none exists), then set
`processedVideos` to the length of the `videos` array. -/
def upsertVideoResult (videos : List VideoResult) (vid : String) (okv : Bool) :
    List VideoResult × Nat :=
  match videos.findIdx? (fun it => it.videoId == vid) with
  | some i =>
      let vids := videos.set i (VideoResult.mk vid (some okv))
      (vids, vids.length)
  | none =>
      let vids := videos ++ [VideoResult.mk vid (some okv)]
      (vids, vids.length)

/-- Number of entries whose result is not a placeholder. -/
def nonPlaceholderCount (videos : List VideoResult) : Nat :=
  (videos.filter (fun p => p.ok.isSome)).length

/-- Number of placeholder entries. -/
def placeholderCount (videos : List VideoResult) : Nat :=
  (videos.filter (fun p => p.ok.isNone)).length

/-! ## Segment token signer and proxy verification -/

/-- A JSON value as it travels through a signed token payload: the
model keeps the two shapes relevant here, strings and numbers. -/
inductive JVal
  | jstr (s : String)
  | jnum (n : Int)
deriving DecidableEq, Repr

/-- JS strict equality `===` on payload values: values of different
types are never equal. -/
def strictEq : JVal → JVal → Bool
  | .jstr a, .jstr b => a == b
  | .jnum a, .jnum b => a == b
  | _, _ => false

/-- JS `Number(..)` on a payload value, for the integral fragment used
by segment numbers: a number converts to itself, the empty string to
zero, a digit string to its value, anything else to NaN (`none`). -/
def jsToNumber : JVal → Option Int
  | .jnum n => some n
  | .jstr s =>
      if s.data = [] then some 0
      else if s.data.all (fun c => c.isDigit) then some (Int.ofNat (natOfDigits s.data))
      else none

/-- JS numeric equality under `!==` semantics with NaN: two converted
values compare equal only when both are actual numbers and equal. -/
def numEq (a b : Option Int) : Bool :=
  match a, b with
  | some x, some y => decide (x = y)
  | _, _ => false

/-- A signed segment token's claims. -/
structure TokenPayload where
  videoId : JVal
  quality : JVal
  segmentNumber : JVal
deriving DecidableEq, Repr

/-- Embeds `signSegment`: the token binds the path `videoId` (a
string) and the request body's `quality` and `segmentNumber` exactly
as supplied. -/
def signSegment (videoId : String) (quality segmentNumber : JVal) : TokenPayload :=
  ⟨.jstr videoId, quality, segmentNumber⟩

/-- Embeds the claim check of `proxySegment`: `payload.videoId !==
videoId || payload.quality !== quality || Number(payload.segmentNumber)
!== Number(segmentNumber)` rejects; path parameters are strings. -/
def proxyAcceptsPayload (p : TokenPayload) (pathVideoId pathQuality pathSeg : String) : Bool :=
  strictEq p.videoId (.jstr pathVideoId) &&
  strictEq p.quality (.jstr pathQuality) &&
  numEq (jsToNumber p.segmentNumber) (jsToNumber (.jstr pathSeg))

/-- HTTP answer of the claim check: `none` means the request proceeds,
`some 403` is the permission-denied rejection. -/
def proxyAuthResponse (p : TokenPayload) (pathVideoId pathQuality pathSeg : String) :
    Option Nat :=
  if proxyAcceptsPayload p pathVideoId pathQuality pathSeg then none else some 403

/-- Conclusion of the amended claim C3, for a final path component
`last` and target index `idx`:  when digit runs exist, the resolver
replaces a run of maximal numeric value — the first such run on ties —
with the zero-padded index, all other characters unchanged; when none
exist, it inserts `_<idx>` at the first occurrence of the extension
substring, or appends at the end without an extension. -/
def resolverAmendedStatement (last : String) (idx : Nat) : Prop :=
  (∀ r rs, digitRuns last.data = r :: rs →
    ∃ pos digits l1 l2,
      digitRuns last.data = l1 ++ (pos, digits) :: l2 ∧
      (∀ x ∈ l1, natOfDigits x.2 < natOfDigits digits) ∧
      (∀ x ∈ digitRuns last.data, natOfDigits x.2 ≤ natOfDigits digits) ∧
      buildFilenameForIndex last idx
        = String.mk (last.data.take pos ++ padStartZeros (Nat.repr idx).data digits.length
            ++ last.data.drop (pos + digits.length))) ∧
  (digitRuns last.data = [] →
    (∀ ext, extSuffix last.data = some ext →
      ∃ j, findSubstrGo ext last.data 0 = some j ∧
        buildFilenameForIndex last idx
          = String.mk (last.data.take j ++ '_' :: (Nat.repr idx).data ++ last.data.drop j)) ∧
    (extSuffix last.data = none →
      buildFilenameForIndex last idx = String.mk (last.data ++ '_' :: (Nat.repr idx).data)))

/-- Conclusion of the amended claim C7, about the emitted EXTINF
values: `N` entries are emitted; every non-final entry is the rounded
even division when that value is nonzero and 1 otherwise (the
emission fallback); when no computed duration is zero the emitted sum
is within 0.001 of the stored duration; and the emitted
EXT-X-TARGETDURATION always equals the ceiling of the longest emitted
segment duration. -/
def playlistLawStatement (D : ℚ) (N : Nat) : Prop :=
  (emittedDurations D N).length = N ∧
  (∀ i, i + 1 < N →
    (emittedDurations D N).getD i 0
      = (if round3 (D / N) = 0 then 1 else round3 (D / N))) ∧
  ((∀ d ∈ segmentDurations D N, d ≠ 0) →
    |(emittedDurations D N).sum - D| ≤ 1 / 1000) ∧
  targetDuration (segmentDurations D N) = ⌈longestSegment (emittedDurations D N)⌉

/-! ## Supporting lemmas -/

theorem string_ext {a b : String} (h : a.data = b.data) : a = b := by
  cases a; cases b; exact congrArg String.mk h

theorem string_data_append (a b : String) : (a ++ b).data = a.data ++ b.data := by
  cases a; cases b; rfl

theorem string_append_assoc (a b c : String) : a ++ b ++ c = a ++ (b ++ c) := by
  apply string_ext
  simp [string_data_append]

theorem string_append_cancel_left (p a b : String) : p ++ a = p ++ b ↔ a = b := by
  constructor
  · intro h
    have hd : (p ++ a).data = (p ++ b).data := congrArg String.data h
    rw [string_data_append, string_data_append] at hd
    exact string_ext (List.append_cancel_left hd)
  · intro h; rw [h]

/-! ## Claim theorems -/

/-- C1.  The resume skip test of `resumeValidationJob` skips a catalog
video exactly when the stored result list holds an entry for it whose
`ok` field is defined; in particular a video whose only entry is a
placeholder (`ok` undefined) is re-attempted, not skipped. -/
theorem c1_resume_retries_placeholders (videos : List VideoResult) (vid : String) :
    resumeSkips videos vid = true ↔ ∃ p ∈ videos, p.videoId = vid ∧ p.ok ≠ none := by
  unfold resumeSkips
  rw [List.elem_iff]
  unfold processedSet
  simp only [List.mem_map, List.mem_filter, Option.isSome_iff_ne_none]
  constructor
  · rintro ⟨p, ⟨hp, hok⟩, hvid⟩
    exact ⟨p, hp, hvid, hok⟩
  · rintro ⟨p, hp, hvid, hok⟩
    exact ⟨p, ⟨hp, hok⟩, hvid⟩

/-- C4.  Whenever the in-memory registry holds a job with status
`running`, `startValidateAllVideos` answers HTTP 409, registers no new
job, and leaves the registry untouched. -/
theorem c4_running_job_blocks_start (registry : List (String × JobRecord)) (newId : String)
    (h : ∃ kv ∈ registry, kv.2.status = JobStatus.running) :
    (startValidateAllVideos registry newId).httpStatus = 409 ∧
    (startValidateAllVideos registry newId).registry = registry ∧
    (startValidateAllVideos registry newId).jobId = none := by
  have hrun : hasRunningValidation registry = true := by
    unfold hasRunningValidation
    rw [List.any_eq_true]
    obtain ⟨kv, hkv, hst⟩ := h
    exact ⟨kv, hkv, by simp [hst]⟩
  simp [startValidateAllVideos, hrun]

/-- Witness for C4: a singleton registry holding one running job. -/
theorem c4_running_job_blocks_start_witness :
    (∃ kv ∈ [("j1", { createJobRecord "j1" with status := JobStatus.running })],
        kv.2.status = JobStatus.running) ∧
    ((startValidateAllVideos
        [("j1", { createJobRecord "j1" with status := JobStatus.running })] "j2").httpStatus = 409 ∧
     (startValidateAllVideos
        [("j1", { createJobRecord "j1" with status := JobStatus.running })] "j2").registry
        = [("j1", { createJobRecord "j1" with status := JobStatus.running })] ∧
     (startValidateAllVideos
        [("j1", { createJobRecord "j1" with status := JobStatus.running })] "j2").jobId = none) := by
  have hex : ∃ kv ∈ [("j1", { createJobRecord "j1" with status := JobStatus.running })],
      kv.2.status = JobStatus.running :=
    ⟨("j1", { createJobRecord "j1" with status := JobStatus.running }), by simp, rfl⟩
  exact ⟨hex, c4_running_job_blocks_start _ "j2" hex⟩

/-- C10.  The segment proxy compares the token's quality claim to the
path parameter by strict equality while the segment number is compared
numerically: any accepted request carries the quality as exactly the
path's string, and replacing the quality claim of an accepted token by
any JSON number yields a 403 for the very same request. -/
theorem c10_quality_strict_string_equality (p : TokenPayload) (v q s : String) (m : Int)
    (hacc : proxyAcceptsPayload p v q s = true) :
    p.quality = JVal.jstr q ∧
    proxyAuthResponse ⟨p.videoId, JVal.jnum m, p.segmentNumber⟩ v q s = some 403 := by
  unfold proxyAcceptsPayload at hacc
  rw [Bool.and_eq_true, Bool.and_eq_true] at hacc
  obtain ⟨⟨hv, hq⟩, hs⟩ := hacc
  constructor
  · cases hpq : p.quality with
    | jstr a =>
        rw [hpq] at hq
        simp only [strictEq, beq_iff_eq] at hq
        rw [hq]
    | jnum a =>
        rw [hpq] at hq
        simp [strictEq] at hq
  · simp [proxyAuthResponse, proxyAcceptsPayload, strictEq]

/-- Witness for C10: a token signed for quality "720" as a string is
accepted for the matching request, while the number 720 in the quality
claim is rejected with 403. -/
theorem c10_quality_strict_string_equality_witness :
    proxyAcceptsPayload (signSegment "vid" (JVal.jstr "720") (JVal.jnum 7)) "vid" "720" "7"
      = true ∧
    ((signSegment "vid" (JVal.jstr "720") (JVal.jnum 7)).quality = JVal.jstr "720" ∧
     proxyAuthResponse
        ⟨(signSegment "vid" (JVal.jstr "720") (JVal.jnum 7)).videoId, JVal.jnum 720,
          (signSegment "vid" (JVal.jstr "720") (JVal.jnum 7)).segmentNumber⟩
        "vid" "720" "7" = some 403) :=
  ⟨by decide,
   c10_quality_strict_string_equality
     (signSegment "vid" (JVal.jstr "720") (JVal.jnum 7)) "vid" "720" "7" 720 (by decide)⟩

theorem videoResult_length_split (l : List VideoResult) :
    l.length = nonPlaceholderCount l + placeholderCount l := by
  unfold nonPlaceholderCount placeholderCount
  induction l with
  | nil => rfl
  | cons p t ih =>
      cases hp : p.ok with
      | none => simp_all [List.filter_cons, hp]; omega
      | some b => simp_all [List.filter_cons, hp]; omega

/-- C5 counterexample.  Immediately after the engine inserts the
in-progress placeholder, `processedVideos` is the full array length
(2), while the number of non-placeholder results is 1: the placeholder
is counted, contradicting the claimed invariant. -/
theorem c5_counterexample_placeholder_counted :
    (insertPlaceholder [⟨"v1", some true⟩] "v2").2 = 2 ∧
    nonPlaceholderCount (insertPlaceholder [⟨"v1", some true⟩] "v2").1 = 1 ∧
    (2 : Nat) ≠ 1 := by decide

/-- C5 amended.  After every state update of the job loop,
`processedVideos` equals the total length of the result list,
placeholders included; immediately after the placeholder insertion it
therefore equals the non-placeholder count plus the number of
placeholders, which is at least one. -/
theorem c5_amended_processed_is_length (videos : List VideoResult) (vid : String) (okv : Bool) :
    (insertPlaceholder videos vid).2 = (insertPlaceholder videos vid).1.length ∧
    (upsertVideoResult videos vid okv).2 = (upsertVideoResult videos vid okv).1.length ∧
    (insertPlaceholder videos vid).2
        = nonPlaceholderCount (insertPlaceholder videos vid).1
          + placeholderCount (insertPlaceholder videos vid).1 ∧
    1 ≤ placeholderCount (insertPlaceholder videos vid).1 := by
  refine ⟨rfl, ?_, ?_, ?_⟩
  · unfold upsertVideoResult
    cases h : videos.findIdx? (fun it => it.videoId == vid) <;> simp [h]
  · exact videoResult_length_split _
  · unfold insertPlaceholder placeholderCount
    simp [List.filter_append]

/-- C6.  A terminal fast-path failure (HTTP 404 or 410 on the last
segment) makes `validateVideoSegments` throw a terminal error with no
per-segment fallback probes issued, whatever `allowFullCheck` is; and
the job engine's retry loop stops after the single terminal attempt. -/
theorem c6_terminal_short_circuit
    (headOut getOut : Nat → FetchOutcome) (segHead segGet : Nat → Nat → FetchOutcome)
    (allowFullCheck : Bool) (segCount s : Nat) (attemptResult : Nat → QualityOutcome)
    (hfast : fastPathProbe headOut getOut = FetchResult.error (FetchErr.http s))
    (hterm : s = 404 ∨ s = 410)
    (hatt : attemptResult 0 = QualityOutcome.error (QualityError.terminal s)) :
    (validateQualityModel headOut getOut allowFullCheck segCount segHead segGet).1
        = QualityOutcome.error (QualityError.terminal s) ∧
    (validateQualityModel headOut getOut allowFullCheck segCount segHead segGet).2 = [] ∧
    runVideoAttempts attemptResult 2 = (false, 1) := by
  have hs : s = 410 ∨ s = 404 := hterm.symm
  have hval : validateQualityModel headOut getOut allowFullCheck segCount segHead segGet
      = (QualityOutcome.error (QualityError.terminal s), []) := by
    unfold validateQualityModel
    rw [hfast]
    exact if_pos hs
  refine ⟨by rw [hval], by rw [hval], ?_⟩
  simp [runVideoAttempts, runAttemptsGo, hatt]

/-- Witness for C6: a fast path answering HTTP 410 short-circuits even
with `allowFullCheck = true` and five available segments. -/
theorem c6_terminal_short_circuit_witness :
    fastPathProbe (fun _ => FetchOutcome.httpErr 410) (fun _ => FetchOutcome.httpErr 410)
        = FetchResult.error (FetchErr.http 410) ∧
    ((410 : Nat) = 404 ∨ (410 : Nat) = 410) ∧
    (fun _ : Nat => QualityOutcome.error (QualityError.terminal 410)) 0
        = QualityOutcome.error (QualityError.terminal 410) ∧
    ((validateQualityModel (fun _ => FetchOutcome.httpErr 410) (fun _ => FetchOutcome.httpErr 410)
        true 5 (fun _ _ => FetchOutcome.ok 200) (fun _ _ => FetchOutcome.ok 200)).1
        = QualityOutcome.error (QualityError.terminal 410) ∧
     (validateQualityModel (fun _ => FetchOutcome.httpErr 410) (fun _ => FetchOutcome.httpErr 410)
        true 5 (fun _ _ => FetchOutcome.ok 200) (fun _ _ => FetchOutcome.ok 200)).2 = [] ∧
     runVideoAttempts (fun _ => QualityOutcome.error (QualityError.terminal 410)) 2
        = (false, 1)) :=
  ⟨by decide, by decide, rfl,
   c6_terminal_short_circuit (fun _ => FetchOutcome.httpErr 410)
     (fun _ => FetchOutcome.httpErr 410) (fun _ _ => FetchOutcome.ok 200)
     (fun _ _ => FetchOutcome.ok 200) true 5 410
     (fun _ => QualityOutcome.error (QualityError.terminal 410))
     (by decide) (by decide) rfl⟩

/-- C8 counterexample.  With the default 60s window and 6 requests
already recorded within the last second, the required lower bound is
59000 ms, but the call sleeps only the 30000 ms cap before recording
its timestamp. -/
theorem c8_counterexample_wait_capped :
    (waitForTurn [0, 1, 2, 3, 4, 5] 1000 60000 6).waitMs = 30000 ∧
    ¬ (60000 - (1000 - 0) ≤ (waitForTurn [0, 1, 2, 3, 4, 5] 1000 60000 6).waitMs) := by
  decide

/-- C8 amended.  When the purged window is already full, the call
sleeps exactly `min (max 50 (oldest + windowMs - now)) 30000`
milliseconds — the 30-second cap applies — and then appends its
timestamp unconditionally, without re-checking that a slot is free. -/
theorem c8_amended_single_capped_wait (entries : List Int) (now windowMs maxReq oldest : Int)
    (hpurged : purgeOld entries now windowMs = entries)
    (hfull : maxReq ≤ (entries.length : Int))
    (hhead : entries.head? = some oldest) :
    (waitForTurn entries now windowMs maxReq).waitMs
        = min (max 50 (oldest + windowMs - now)) 30000 ∧
    (waitForTurn entries now windowMs maxReq).entries
        = purgeOld entries (now + min (max 50 (oldest + windowMs - now)) 30000) windowMs
            ++ [now + min (max 50 (oldest + windowMs - now)) 30000] := by
  obtain ⟨a, t, rfl⟩ : ∃ a t, entries = a :: t := by
    cases entries with
    | nil => simp at hhead
    | cons a t => exact ⟨a, t, rfl⟩
  have ha : a = oldest := by simpa using hhead
  subst ha
  simp only [waitForTurn, hpurged]
  rw [if_neg (not_lt.mpr hfull)]
  simp [List.headD]

/-- Witness for C8: six requests at times 0..5 within a 60s window,
next call at t=1000 sleeps the capped 30000 ms. -/
theorem c8_amended_single_capped_wait_witness :
    purgeOld [0, 1, 2, 3, 4, 5] 1000 60000 = [0, 1, 2, 3, 4, 5] ∧
    (6 : Int) ≤ (([0, 1, 2, 3, 4, 5] : List Int).length : Int) ∧
    ([0, 1, 2, 3, 4, 5] : List Int).head? = some 0 ∧
    ((waitForTurn [0, 1, 2, 3, 4, 5] 1000 60000 6).waitMs
        = min (max 50 (0 + 60000 - 1000)) 30000 ∧
     (waitForTurn [0, 1, 2, 3, 4, 5] 1000 60000 6).entries
        = purgeOld [0, 1, 2, 3, 4, 5] (1000 + min (max 50 (0 + 60000 - 1000)) 30000) 60000
            ++ [1000 + min (max 50 (0 + 60000 - 1000)) 30000]) :=
  ⟨by decide, by decide, by decide,
   c8_amended_single_capped_wait [0, 1, 2, 3, 4, 5] 1000 60000 6 0
     (by decide) (by decide) (by decide)⟩

/-- C9 counterexample.  A HEAD response with status 404 makes
`probeUrl` return after a single attempt — no retry, no backoff — and
the returned record carries neither `method` nor `error`. -/
theorem c9_counterexample_no_retry_on_http_status :
    probeUrlModel (fun _ => HeadOut.resp 404) (fun _ => GetOut.resp 404) (fun _ => 0) 2
        = (⟨false, some 404, none, none⟩, 1, []) ∧
    (1 : Nat) ≠ 2 := by decide

/-- C2 counterexample.  For segment 7 of a quality whose template is
`.../segment-41-v1-a1.ts`, the validator mirrors under
`videos/v1/720/segment-7.ts` while the proxy looks up
`videos/v1/720/segment-07-v1-a1.ts`: the round trip misses. -/
theorem c2_counterexample_mirror_key_mismatch :
    validatorMirrorKey "v1" "720" 7 = "videos/v1/720/segment-7.ts" ∧
    proxyGridLookupKey "v1" "720" "https://cdn.example.com/media/segment-41-v1-a1.ts" "7"
        = "videos/v1/720/segment-07-v1-a1.ts" ∧
    validatorMirrorKey "v1" "720" 7
      ≠ proxyGridLookupKey "v1" "720" "https://cdn.example.com/media/segment-41-v1-a1.ts" "7" := by
  decide

/-- C2 amended.  The proxy's GridFS lookup key agrees with the
validator's mirror key exactly when the resolved upstream filename for
index `i` happens to equal the deterministic `segment-<i>.ts`; for any
other resolved name the mirrored bytes are not found under the looked-up
key. -/
theorem c2_amended_lookup_by_resolved_name (videoId quality lastSegmentUrl : String) (i : Nat) :
    (proxyGridLookupKey videoId quality lastSegmentUrl (Nat.repr i)
        = validatorMirrorKey videoId quality i)
      ↔ String.mk (resolveSegmentFilename (lastUrlComponent lastSegmentUrl).data (Nat.repr i).data)
          = "segment-" ++ Nat.repr i ++ ".ts" := by
  have hm : validatorMirrorKey videoId quality i
      = ("videos/" ++ videoId ++ "/" ++ quality ++ "/")
          ++ ("segment-" ++ Nat.repr i ++ ".ts") := by
    apply string_ext
    simp only [validatorMirrorKey, mirrorSegmentKey, string_data_append, List.append_assoc]
    rfl
  rw [hm]
  exact string_append_cancel_left ("videos/" ++ videoId ++ "/" ++ quality ++ "/") _ _

theorem round3_half_bound (x : ℚ) : |round3 x - x| ≤ 1 / 2000 := by
  unfold round3
  have h1 : ((⌊x * 1000 + 1 / 2⌋ : ℤ) : ℚ) ≤ x * 1000 + 1 / 2 := Int.floor_le _
  have h2 : x * 1000 + 1 / 2 < (⌊x * 1000 + 1 / 2⌋ : ℚ) + 1 := Int.lt_floor_add_one _
  rw [abs_le]
  constructor <;> linarith

theorem round3_int_div (k : ℤ) : round3 ((k : ℚ) / 1000) = (k : ℚ) / 1000 := by
  unfold round3
  have h : (k : ℚ) / 1000 * 1000 + 1 / 2 = (k : ℚ) + 1 / 2 := by
    field_simp
  rw [h, Int.floor_int_add]
  norm_num

theorem getD_replicate (m i : Nat) (r : ℚ) (h : i < m) :
    (List.replicate m r).getD i 0 = r := by
  induction m generalizing i with
  | zero => omega
  | succ k ih =>
      cases i with
      | zero => rfl
      | succ j => simpa [List.replicate_succ] using ih j (by omega)

theorem replicate_set_last (n : Nat) (r v : ℚ) (hn : 0 < n) :
    (List.replicate n r).set (n - 1) v = List.replicate (n - 1) r ++ [v] := by
  induction n with
  | zero => omega
  | succ m ih =>
      cases m with
      | zero => rfl
      | succ k =>
          have h := ih (Nat.succ_pos k)
          simp only [Nat.succ_sub_one] at h ⊢
          rw [List.replicate_succ, List.set_cons_succ, h, List.replicate_succ, List.cons_append]

theorem foldl_max_max (a b : ℚ) (l : List ℚ) :
    l.foldl max (max a b) = max a (l.foldl max b) := by
  induction l generalizing b with
  | nil => rfl
  | cons c t ih =>
      simp only [List.foldl_cons]
      rw [max_assoc]
      exact ih _

theorem targetDuration_eq_ceil_max (durs : List ℚ) :
    targetDuration durs = ⌈max (longestSegment durs) 1⌉ := by
  unfold targetDuration
  cases durs with
  | nil => simp [longestSegment]
  | cons d ds =>
      simp only [longestSegment, List.foldl_cons]
      rw [foldl_max_max 1 d ds, max_comm]

theorem sum_bound_noadjust (D : ℚ) (N : Nat)
    (h : ¬ 1 / 2000 < |round3 (D - (List.replicate N (round3 (D / N))).sum)|) :
    |(List.replicate N (round3 (D / N))).sum - D| ≤ 1 / 1000 := by
  have hsum : (List.replicate N (round3 (D / N))).sum = (N : ℚ) * round3 (D / N) := by
    rw [List.sum_replicate, nsmul_eq_mul]
  rw [hsum] at h ⊢
  have hzero : round3 (D - (N : ℚ) * round3 (D / N)) = 0 := by
    have hle : |round3 (D - (N : ℚ) * round3 (D / N))| ≤ 1 / 2000 := not_lt.mp h
    have hk : round3 (D - (N : ℚ) * round3 (D / N))
        = ((⌊(D - (N : ℚ) * round3 (D / N)) * 1000 + 1 / 2⌋ : ℤ) : ℚ) / 1000 := rfl
    set k : ℤ := ⌊(D - (N : ℚ) * round3 (D / N)) * 1000 + 1 / 2⌋ with hkdef
    have hkz : k = 0 := by
      by_contra hk0
      have h1 : (1 : ℚ) ≤ |(k : ℚ)| := by
        have := Int.one_le_abs (by omega : k ≠ 0)
        exact_mod_cast this
      rw [hk] at hle
      rw [abs_div] at hle
      have : |(1000 : ℚ)| = 1000 := by norm_num
      rw [this] at hle
      linarith
    rw [hk, hkz]
    norm_num
  have hb := round3_half_bound (D - (N : ℚ) * round3 (D / N))
  rw [hzero] at hb
  have hb' : |D - (N : ℚ) * round3 (D / N)| ≤ 1 / 2000 := by
    have : |(0 : ℚ) - (D - (N : ℚ) * round3 (D / N))|
        = |D - (N : ℚ) * round3 (D / N)| := by
      rw [zero_sub, abs_neg]
    linarith [this ▸ hb]
  have : |(N : ℚ) * round3 (D / N) - D| = |D - (N : ℚ) * round3 (D / N)| := abs_sub_comm _ _
  rw [this]
  linarith

theorem sum_bound_adjust (D : ℚ) (N : Nat) (hN : 0 < N) :
    |((List.replicate N (round3 (D / N))).set (N - 1)
        (round3 ((List.replicate N (round3 (D / N))).getD (N - 1) 0
          + round3 (D - (List.replicate N (round3 (D / N))).sum)))).sum - D| ≤ 1 / 1000 := by
  have hsum : (List.replicate N (round3 (D / N))).sum = (N : ℚ) * round3 (D / N) := by
    rw [List.sum_replicate, nsmul_eq_mul]
  have hgetD : (List.replicate N (round3 (D / N))).getD (N - 1) 0 = round3 (D / N) :=
    getD_replicate N (N - 1) _ (by omega)
  have hfix : round3 (round3 (D / N) + round3 (D - (N : ℚ) * round3 (D / N)))
      = round3 (D / N) + round3 (D - (N : ℚ) * round3 (D / N)) := by
    have h1 : round3 (D / N) + round3 (D - (N : ℚ) * round3 (D / N))
        = ((⌊D / (N : ℚ) * 1000 + 1 / 2⌋ + ⌊(D - (N : ℚ) * round3 (D / N)) * 1000 + 1 / 2⌋ : ℤ)
            : ℚ) / 1000 := by
      unfold round3
      push_cast
      ring
    rw [h1, round3_int_div, ← h1]
  rw [hgetD, hsum, hfix, replicate_set_last N _ _ hN]
  rw [List.sum_append, List.sum_replicate, nsmul_eq_mul, List.sum_singleton]
  have hcast : ((N - 1 : Nat) : ℚ) = (N : ℚ) - 1 := by
    have : (1 : Nat) ≤ N := hN
    push_cast [this]
    ring
  rw [hcast]
  have hb := round3_half_bound (D - (N : ℚ) * round3 (D / N))
  have heq : ((N : ℚ) - 1) * round3 (D / N)
        + (round3 (D / N) + round3 (D - (N : ℚ) * round3 (D / N))) - D
      = round3 (D - (N : ℚ) * round3 (D / N)) - (D - (N : ℚ) * round3 (D / N)) := by
    ring
  rw [heq]
  linarith

theorem segmentDurations_length (D : ℚ) (N : Nat) (hD : 0 < D) (hN : 0 < N) :
    (segmentDurations D N).length = N := by
  unfold segmentDurations
  rw [if_pos ⟨hD, hN⟩]
  by_cases hc : 1 / 2000
      < |round3 (D - (List.replicate N (round3 (D / N))).sum)|
  · rw [if_pos hc, List.length_set, List.length_replicate]
  · rw [if_neg hc, List.length_replicate]

theorem segmentDurations_getD_front (D : ℚ) (N : Nat) (hD : 0 < D) (hN : 0 < N)
    (i : Nat) (hi : i + 1 < N) :
    (segmentDurations D N).getD i 0 = round3 (D / N) := by
  unfold segmentDurations
  rw [if_pos ⟨hD, hN⟩]
  by_cases hc : 1 / 2000
      < |round3 (D - (List.replicate N (round3 (D / N))).sum)|
  · rw [if_pos hc, replicate_set_last N _ _ hN]
    rw [List.getD_append _ _ _ _ (by simpa using (by omega : i < N - 1))]
    exact getD_replicate _ _ _ (by omega)
  · rw [if_neg hc]
    exact getD_replicate _ _ _ (by omega)

theorem segmentDurations_sum_bound (D : ℚ) (N : Nat) (hD : 0 < D) (hN : 0 < N) :
    |(segmentDurations D N).sum - D| ≤ 1 / 1000 := by
  unfold segmentDurations
  rw [if_pos ⟨hD, hN⟩]
  by_cases hc : 1 / 2000
      < |round3 (D - (List.replicate N (round3 (D / N))).sum)|
  · rw [if_pos hc]
    exact sum_bound_adjust D N hN
  · rw [if_neg hc]
    exact sum_bound_noadjust D N hc

theorem segmentDurations_split (D : ℚ) (N : Nat) (hD : 0 < D) (hN : 0 < N) :
    segmentDurations D N = List.replicate N (round3 (D / N))
    ∨ (segmentDurations D N
        = List.replicate (N - 1) (round3 (D / N))
            ++ [round3 (round3 (D / N)
                  + round3 (D - (List.replicate N (round3 (D / N))).sum))]
       ∧ 1 / 2000 < |round3 (D - (List.replicate N (round3 (D / N))).sum)|) := by
  unfold segmentDurations
  rw [if_pos ⟨hD, hN⟩]
  by_cases hc : 1 / 2000
      < |round3 (D - (List.replicate N (round3 (D / N))).sum)|
  · right
    refine ⟨?_, hc⟩
    rw [if_pos hc, getD_replicate _ _ _ (by omega), replicate_set_last _ _ _ hN]
  · left
    rw [if_neg hc]

theorem round3_nonneg {x : ℚ} (hx : 0 ≤ x) : 0 ≤ round3 x := by
  unfold round3
  apply div_nonneg _ (by norm_num)
  have h : (0 : ℚ) ≤ x * 1000 + 1 / 2 := by nlinarith
  exact_mod_cast Int.floor_nonneg.mpr h

theorem round3_add_round3 (x y : ℚ) :
    round3 (round3 x + round3 y) = round3 x + round3 y := by
  have h1 : round3 x + round3 y
      = ((⌊x * 1000 + 1 / 2⌋ + ⌊y * 1000 + 1 / 2⌋ : ℤ) : ℚ) / 1000 := by
    unfold round3
    push_cast
    ring
  rw [h1, round3_int_div]

theorem ceil_max_one_pos {m : ℚ} (hm : 0 < m) : ⌈max 1 m⌉ = ⌈m⌉ := by
  rcases le_or_lt 1 m with h | h
  · rw [max_eq_right h]
  · rw [max_eq_left h.le]
    have h1 : ⌈m⌉ = 1 := by
      rw [Int.ceil_eq_iff]
      constructor
      · push_cast
        linarith
      · push_cast
        linarith
    rw [h1]
    simp

theorem foldl_max_replicate_self (m : Nat) (r : ℚ) :
    (List.replicate m r).foldl max r = r := by
  induction m with
  | zero => rfl
  | succ k ih => simp [List.replicate_succ, List.foldl_cons, max_self, ih]

theorem longest_replicate (n : Nat) (hn : 0 < n) (r : ℚ) :
    longestSegment (List.replicate n r) = r := by
  obtain ⟨m, rfl⟩ : ∃ m, n = m + 1 := ⟨n - 1, by omega⟩
  simp [List.replicate_succ, longestSegment, foldl_max_replicate_self]

theorem longest_replicate_append (m : Nat) (r v : ℚ) :
    longestSegment (List.replicate m r ++ [v]) = if m = 0 then v else max r v := by
  cases m with
  | zero => simp [longestSegment]
  | succ k =>
      simp only [List.replicate_succ, List.cons_append, longestSegment]
      rw [List.foldl_append, foldl_max_replicate_self]
      simp

theorem getD_map_if (l : List ℚ) (i : Nat) (h : i < l.length) :
    (l.map (fun d => if d = 0 then 1 else d)).getD i 0
      = (if l.getD i 0 = 0 then 1 else l.getD i 0) := by
  rw [List.getD_eq_getElem?_getD, List.getD_eq_getElem?_getD, List.getElem?_map,
    List.getElem?_eq_getElem h]
  simp

theorem max_fix_zero (w : ℚ) : max (max 0 w) 1 = max 1 w := by
  rcases le_total w 0 with h | h
  · rw [max_eq_left h, max_eq_left (h.trans zero_le_one)]
    exact max_eq_right zero_le_one
  · rw [max_eq_right h, max_comm]

theorem single_adjust_diff (D : ℚ)
    (hc : 1 / 2000 < |round3 (D - round3 D)|) : round3 (D - round3 D) = 1 / 1000 := by
  have hb : |round3 D - D| ≤ 1 / 2000 := round3_half_bound D
  have hxb : |D - round3 D| ≤ 1 / 2000 := by
    rw [abs_sub_comm]
    exact hb
  have hk : round3 (D - round3 D)
      = ((⌊(D - round3 D) * 1000 + 1 / 2⌋ : ℤ) : ℚ) / 1000 := rfl
  rw [abs_le] at hxb
  have hy0 : (0 : ℚ) ≤ (D - round3 D) * 1000 + 1 / 2 := by linarith
  have hy1 : (D - round3 D) * 1000 + 1 / 2 ≤ 1 := by linarith
  have hk0 : 0 ≤ ⌊(D - round3 D) * 1000 + 1 / 2⌋ := Int.floor_nonneg.mpr hy0
  have hk1 : ⌊(D - round3 D) * 1000 + 1 / 2⌋ ≤ 1 := by
    have hle : ((⌊(D - round3 D) * 1000 + 1 / 2⌋ : ℤ) : ℚ) ≤ 1 :=
      le_trans (Int.floor_le _) hy1
    exact_mod_cast hle
  have hkne : ⌊(D - round3 D) * 1000 + 1 / 2⌋ ≠ 0 := by
    intro h0
    rw [hk, h0] at hc
    norm_num at hc
  have hone : ⌊(D - round3 D) * 1000 + 1 / 2⌋ = 1 := by omega
  rw [hk, hone]
  norm_num

theorem ceil_fix_pair (r v : ℚ) (hr0 : 0 ≤ r) :
    ⌈max (max r v) 1⌉ = ⌈max (if r = 0 then 1 else r) (if v = 0 then 1 else v)⌉ := by
  by_cases hr : r = 0
  · by_cases hv : v = 0
    · rw [hr, hv, max_self, if_pos rfl, max_self,
        max_eq_right (by norm_num : (0 : ℚ) ≤ 1)]
    · rw [hr, if_pos rfl, if_neg hv, max_fix_zero]
  · have hrpos : 0 < r := lt_of_le_of_ne hr0 (Ne.symm hr)
    by_cases hv : v = 0
    · rw [hv, if_neg hr, if_pos rfl, max_eq_left hr0]
    · rw [if_neg hr, if_neg hv, max_comm _ 1]
      exact ceil_max_one_pos (lt_of_lt_of_le hrpos (le_max_left _ _))

theorem ceil_fix_single (v : ℚ) (hv : 0 < v) :
    ⌈max v 1⌉ = ⌈if v = 0 then 1 else v⌉ := by
  rw [if_neg (ne_of_gt hv), max_comm]
  exact ceil_max_one_pos hv

theorem emitted_replicate (n : Nat) (r : ℚ) :
    (List.replicate n r).map (fun d => if d = 0 then 1 else d)
      = List.replicate n (if r = 0 then 1 else r) := by
  rw [List.map_replicate]

theorem emitted_replicate_append (n : Nat) (r v : ℚ) :
    (List.replicate n r ++ [v]).map (fun d => if d = 0 then 1 else d)
      = List.replicate n (if r = 0 then 1 else r) ++ [if v = 0 then 1 else v] := by
  rw [List.map_append, List.map_replicate]
  rfl

theorem segmentDurations_target (D : ℚ) (N : Nat) (hD : 0 < D) (hN : 0 < N) :
    targetDuration (segmentDurations D N) = ⌈longestSegment (emittedDurations D N)⌉ := by
  have hr0 : 0 ≤ round3 (D / N) := round3_nonneg (by positivity)
  rw [targetDuration_eq_ceil_max]
  unfold emittedDurations
  rcases segmentDurations_split D N hD hN with hform | ⟨hform, hc⟩
  · rw [hform, emitted_replicate, longest_replicate N hN, longest_replicate N hN, max_comm]
    by_cases hr : round3 (D / N) = 0
    · rw [hr, if_pos rfl]
      norm_num
    · rw [if_neg hr]
      exact ceil_max_one_pos (lt_of_le_of_ne hr0 (Ne.symm hr))
  · rw [hform, emitted_replicate_append, longest_replicate_append, longest_replicate_append]
    by_cases hN1 : N = 1
    · subst hN1
      rw [if_pos (by norm_num : (1 : Nat) - 1 = 0),
        if_pos (by norm_num : (1 : Nat) - 1 = 0)]
      have hsum1 : (List.replicate 1 (round3 (D / ((1 : Nat) : ℚ)))).sum
          = round3 (D / ((1 : Nat) : ℚ)) := by
        simp
      have hdiv1 : round3 (D / ((1 : Nat) : ℚ)) = round3 D := by norm_num
      rw [hsum1, hdiv1] at hc ⊢
      have hdiff : round3 (D - round3 D) = 1 / 1000 := single_adjust_diff D hc
      have hw : round3 (round3 D + round3 (D - round3 D))
          = round3 D + round3 (D - round3 D) := round3_add_round3 D (D - round3 D)
      have hr0' : 0 ≤ round3 D := round3_nonneg hD.le
      have hwpos : 0 < round3 (round3 D + round3 (D - round3 D)) := by
        rw [hw, hdiff]
        linarith
      exact ceil_fix_single _ hwpos
    · rw [if_neg (by omega : ¬ N - 1 = 0), if_neg (by omega : ¬ N - 1 = 0)]
      exact ceil_fix_pair _ _ hr0

/-- C7 counterexample.  A video with duration 0.0004s and one derived
segment gets the internal duration 0, which the emission loop's
`|| 1` fallback emits as EXTINF 1: the emitted sum is 1, not within
0.001 of the stored duration, and the emitted entry is not the even
division rounded to 3 decimals. -/
theorem c7_counterexample_emitted_fallback :
    segmentDurations (1 / 2500) 1 = [0] ∧
    emittedDurations (1 / 2500) 1 = [1] ∧
    ¬ |(emittedDurations (1 / 2500) 1).sum - 1 / 2500| ≤ 1 / 1000 ∧
    (emittedDurations (1 / 2500) 1).getD 0 0 ≠ round3 (1 / 2500 / 1) := by
  refine ⟨?_, ?_, ?_, ?_⟩
  · norm_num [segmentDurations, round3]
  · norm_num [segmentDurations, emittedDurations, round3]
  · norm_num [segmentDurations, emittedDurations, round3]
    rw [abs_of_pos] <;> norm_num
  · norm_num [segmentDurations, emittedDurations, round3]

/-- C7 amended.  The playlist emits exactly `N` EXTINF values; a
non-final entry is the rounded even division when that value is
nonzero and 1 otherwise (emission fallback `|| 1`); when no computed
duration is zero the emitted sum is within 0.001 of the stored
duration; and EXT-X-TARGETDURATION always equals the ceiling of the
longest emitted segment duration. -/
theorem c7_amended_playlist_law (D : ℚ) (N : Nat) (hD : 0 < D) (hN : 0 < N) :
    playlistLawStatement D N := by
  unfold playlistLawStatement
  refine ⟨?_, ?_, ?_, segmentDurations_target D N hD hN⟩
  · unfold emittedDurations
    rw [List.length_map]
    exact segmentDurations_length D N hD hN
  · intro i hi
    unfold emittedDurations
    rw [getD_map_if _ _ (by rw [segmentDurations_length D N hD hN]; omega),
      segmentDurations_getD_front D N hD hN i hi]
  · intro hnz
    have hemit : emittedDurations D N = segmentDurations D N := by
      unfold emittedDurations
      have h1 : (segmentDurations D N).map (fun d => if d = 0 then 1 else d)
          = (segmentDurations D N).map id :=
        List.map_congr_left (fun d hd => by rw [if_neg (hnz d hd)]; rfl)
      rw [h1, List.map_id]
    rw [hemit]
    exact segmentDurations_sum_bound D N hD hN

/-- Witness for C7: duration 60s across 10 segments — ten emitted
EXTINF values of 6.000 (none hit the fallback) summing exactly to 60,
target duration 6. -/
theorem c7_amended_playlist_law_witness :
    (0 : ℚ) < 60 ∧ (0 : Nat) < 10 ∧ playlistLawStatement 60 10 :=
  ⟨by norm_num, by norm_num, c7_amended_playlist_law 60 10 (by norm_num) (by norm_num)⟩

theorem range_map_shift (jit : Nat → Nat) (n a : Nat) :
    probeDelay (jit a) a
        :: (List.range n).map (fun k => probeDelay (jit (a + 1 + k)) (a + 1 + k))
      = (List.range (n + 1)).map (fun k => probeDelay (jit (a + k)) (a + k)) := by
  have hf : (fun k => probeDelay (jit (a + 1 + k)) (a + 1 + k))
      = (fun k => probeDelay (jit (a + k)) (a + k)) ∘ Nat.succ := by
    funext k
    simp only [Function.comp]
    have : a + 1 + k = a + (k + 1) := by omega
    rw [this]
  rw [List.range_succ_eq_map, List.map_cons, List.map_map, ← hf]
  simp

theorem probeGo_all_err (st : Nat → Option Nat) (msg : Nat → String) (jit : Nat → Nat) :
    ∀ fuel attempt lastErr, 0 < fuel →
    probeGo (fun _ => HeadOut.err) (fun a => GetOut.err (st a) (msg a)) jit attempt lastErr fuel
      = (⟨false, st (attempt + fuel - 1), none, some (msg (attempt + fuel - 1))⟩, attempt + fuel,
         (List.range fuel).map (fun k => probeDelay (jit (attempt + k)) (attempt + k))) := by
  intro fuel
  induction fuel with
  | zero => intro _ _ h; omega
  | succ f ih =>
      intro attempt lastErr _
      cases f with
      | zero =>
          simp only [probeGo]
          cases hst : st attempt <;> simp [hst, List.range_succ]
      | succ g =>
          have hrec := ih (attempt + 1) (some (st attempt, msg attempt)) (Nat.succ_pos g)
          have hstep : probeGo (fun _ => HeadOut.err) (fun a => GetOut.err (st a) (msg a)) jit
              attempt lastErr (g + 1 + 1)
            = ((probeGo (fun _ => HeadOut.err) (fun a => GetOut.err (st a) (msg a)) jit
                  (attempt + 1) (some (st attempt, msg attempt)) (g + 1)).1,
               (probeGo (fun _ => HeadOut.err) (fun a => GetOut.err (st a) (msg a)) jit
                  (attempt + 1) (some (st attempt, msg attempt)) (g + 1)).2.1,
               probeDelay (jit attempt) attempt
                 :: (probeGo (fun _ => HeadOut.err) (fun a => GetOut.err (st a) (msg a)) jit
                      (attempt + 1) (some (st attempt, msg attempt)) (g + 1)).2.2) := rfl
          rw [hstep, hrec]
          have e1 : attempt + 1 + (g + 1) = attempt + (g + 1 + 1) := by omega
          have e2 : attempt + 1 + (g + 1) - 1 = attempt + (g + 1 + 1) - 1 := by omega
          rw [e2, e1, range_map_shift jit (g + 1) attempt]

/-- C9 amended.  `probeUrl` always resolves to a record and retries
with the claimed backoff `min 10000 (250 * 2 ^ attempt + jitter)` only
while neither request yields an HTTP response: with every attempt
failing at the network level it runs all `maxAttempts` attempts and
reports the last GET rejection; but as soon as the HEAD request yields
an HTTP status (necessarily 400 or above), it resolves immediately
after that single attempt with only `ok` and `statusCode` populated —
no retry, no backoff, no `method`, no `error`. -/
theorem c9_amended_retry_contract (st : Nat → Option Nat) (msg : Nat → String) (jit : Nat → Nat)
    (n s s2 : Nat) (hn : 0 < n) (hs : 400 ≤ s) (hs2 : 400 ≤ s2) :
    probeUrlModel (fun _ => HeadOut.err) (fun a => GetOut.err (st a) (msg a)) jit n
        = (⟨false, st (n - 1), none, some (msg (n - 1))⟩, n,
           (List.range n).map (fun k => probeDelay (jit k) k)) ∧
    probeUrlModel (fun _ => HeadOut.resp s) (fun _ => GetOut.resp s2) jit n
        = (⟨false, some s, none, none⟩, 1, []) := by
  constructor
  · have h := probeGo_all_err st msg jit n 0 none hn
    simp only [probeUrlModel]
    rw [h]
    simp
  · obtain ⟨m, rfl⟩ : ∃ m, n = m + 1 := ⟨n - 1, by omega⟩
    simp only [probeUrlModel, probeGo]
    rw [if_neg (by omega : ¬ s < 400), if_neg (by omega : ¬ s2 < 400)]

/-- Witness for C9: two network-failing attempts follow the 350ms and
600ms backoffs and report the last rejection; a HEAD status of 404
resolves in one attempt with no method and no error. -/
theorem c9_amended_retry_contract_witness :
    probeUrlModel (fun _ => HeadOut.err) (fun _ => GetOut.err (some 500) "req failed")
        (fun _ => 100) 2
      = (⟨false, some 500, none, some "req failed"⟩, 2,
         (List.range 2).map (fun k => probeDelay 100 k)) ∧
    probeUrlModel (fun _ => HeadOut.resp 404) (fun _ => GetOut.resp 403) (fun _ => 100) 2
      = (⟨false, some 404, none, none⟩, 1, []) :=
  c9_amended_retry_contract (fun _ => some 500) (fun _ => "req failed") (fun _ => 100) 2 404 403
    (by norm_num) (by norm_num) (by norm_num)

/-- C3 counterexample.  For the digit-free filename `a.ts.ts` the
source's fallback inserts `_7` at the first occurrence of the
extension substring `.ts`, yielding `a_7.ts.ts`, while appending
before the file extension as claimed would yield `a.ts_7.ts`. -/
theorem c3_counterexample_fallback_insertion :
    buildFilenameForIndex "a.ts.ts" 7 = "a_7.ts.ts" ∧
    specResolveFilenameStr "a.ts.ts" 7 = "a.ts_7.ts" ∧
    buildFilenameForIndex "a.ts.ts" 7 ≠ specResolveFilenameStr "a.ts.ts" 7 := by
  decide

theorem natOfDigits_le_foldl (rs : List (Nat × List Char)) :
    ∀ a, natOfDigits a.2 ≤ natOfDigits (rs.foldl bestRunStep a).2 := by
  induction rs with
  | nil => intro a; exact le_refl _
  | cons m t ih =>
      intro a
      have h1 : natOfDigits a.2 ≤ natOfDigits (bestRunStep a m).2 := by
        unfold bestRunStep
        split <;> omega
      exact le_trans h1 (ih (bestRunStep a m))

theorem mem_le_foldl (rs : List (Nat × List Char)) :
    ∀ a x, x ∈ rs → natOfDigits x.2 ≤ natOfDigits (rs.foldl bestRunStep a).2 := by
  induction rs with
  | nil => intro a x hx; simp at hx
  | cons m t ih =>
      intro a x hx
      rcases List.mem_cons.mp hx with rfl | hx'
      · have h1 : natOfDigits x.2 ≤ natOfDigits (bestRunStep a x).2 := by
          unfold bestRunStep
          split <;> omega
        exact le_trans h1 (natOfDigits_le_foldl t _)
      · exact ih (bestRunStep a m) x hx'

theorem foldl_first_max (rs : List (Nat × List Char)) :
    ∀ a, ∃ l1 l2,
      a :: rs = l1 ++ (rs.foldl bestRunStep a) :: l2 ∧
      ∀ x ∈ l1, natOfDigits x.2 < natOfDigits (rs.foldl bestRunStep a).2 := by
  induction rs with
  | nil => intro a; exact ⟨[], [], rfl, by simp⟩
  | cons m t ih =>
      intro a
      by_cases hm : natOfDigits m.2 > natOfDigits a.2
      · have hst : bestRunStep a m = m := by unfold bestRunStep; rw [if_pos hm]
        obtain ⟨l1, l2, hdec, hlt⟩ := ih m
        refine ⟨a :: l1, l2, ?_, ?_⟩
        · show a :: m :: t = (a :: l1) ++ ((m :: t).foldl bestRunStep a) :: l2
          simp only [List.foldl_cons, hst, List.cons_append]
          rw [← hdec]
        · intro x hx
          show natOfDigits x.2 < natOfDigits (((m :: t).foldl bestRunStep a)).2
          simp only [List.foldl_cons, hst]
          rcases List.mem_cons.mp hx with rfl | hx'
          · have h2 := natOfDigits_le_foldl t m
            omega
          · exact hlt x hx'
      · have hst : bestRunStep a m = a := by unfold bestRunStep; rw [if_neg hm]
        obtain ⟨l1, l2, hdec, hlt⟩ := ih a
        cases l1 with
        | nil =>
            rw [List.nil_append] at hdec
            injection hdec with h1 h2
            refine ⟨[], m :: t, ?_, by simp⟩
            show a :: m :: t = [] ++ ((m :: t).foldl bestRunStep a) :: (m :: t)
            simp only [List.foldl_cons, hst, List.nil_append]
            rw [← h1]
        | cons b l1' =>
            rw [List.cons_append] at hdec
            injection hdec with h1 h2
            refine ⟨a :: m :: l1', l2, ?_, ?_⟩
            · show a :: m :: t = (a :: m :: l1') ++ ((m :: t).foldl bestRunStep a) :: l2
              simp only [List.foldl_cons, hst, List.cons_append]
              conv_lhs => rw [h2]
            · intro x hx
              show natOfDigits x.2 < natOfDigits (((m :: t).foldl bestRunStep a)).2
              simp only [List.foldl_cons, hst]
              have ha : natOfDigits a.2 < natOfDigits (t.foldl bestRunStep a).2 := by
                have := hlt b (List.mem_cons_self b l1')
                rw [← h1] at this
                exact this
              rcases List.mem_cons.mp hx with rfl | hx'
              · exact ha
              · rcases List.mem_cons.mp hx' with rfl | hx''
                · omega
                · exact hlt x (List.mem_cons_of_mem b hx'')

theorem digitChar_ne_dollar (m : Nat) : Nat.digitChar m ≠ '$' := by
  by_cases h16 : m < 16
  · interval_cases m <;> decide
  · have h : Nat.digitChar m = '*' := by
      unfold Nat.digitChar
      repeat rw [if_neg (by omega)]
    rw [h]
    decide

theorem toDigitsCore_no_dollar (b : Nat) :
    ∀ fuel n acc, '$' ∉ acc → '$' ∉ Nat.toDigitsCore b fuel n acc := by
  intro fuel
  induction fuel with
  | zero => intro n acc hacc; exact hacc
  | succ f ih =>
      intro n acc hacc
      have hd : '$' ∉ Nat.digitChar (n % b) :: acc := by
        intro hmem
        rcases List.mem_cons.mp hmem with heq | hmem'
        · exact digitChar_ne_dollar (n % b) heq.symm
        · exact hacc hmem'
      simp only [Nat.toDigitsCore]
      split
      · exact hd
      · exact ih (n / b) _ hd

theorem natRepr_no_dollar (n : Nat) : '$' ∉ (Nat.repr n).data :=
  toDigitsCore_no_dollar 10 (n + 1) n [] (by simp)

theorem dollarSubst_id (matched before after rep : List Char) (h : '$' ∉ rep) :
    dollarSubst matched before after rep = rep := by
  induction rep with
  | nil => rfl
  | cons c t ih =>
      have hc : ¬ c = '$' := fun hc => h (hc ▸ List.mem_cons_self c t)
      have ht : '$' ∉ t := fun hm => h (List.mem_cons_of_mem c hm)
      rw [dollarSubst.eq_def]
      simp only [if_neg hc]
      rw [ih ht]

theorem findSubstrGo_sound (pat : List Char) :
    ∀ hay i j, findSubstrGo pat hay i = some j →
      ∃ k, j = i + k ∧ pat.isPrefixOf (hay.drop k) := by
  intro hay
  induction hay with
  | nil =>
      intro i j h
      by_cases hp : pat.isPrefixOf ([] : List Char)
      · simp only [findSubstrGo, if_pos hp] at h
        injection h with h'
        exact ⟨0, by omega, by simpa using hp⟩
      · simp only [findSubstrGo, if_neg hp] at h
        exact absurd h (by simp)
  | cons c t ih =>
      intro i j h
      by_cases hp : pat.isPrefixOf (c :: t)
      · simp only [findSubstrGo, if_pos hp] at h
        injection h with h'
        exact ⟨0, by omega, by simpa using hp⟩
      · simp only [findSubstrGo, if_neg hp] at h
        obtain ⟨k, hk, hpre⟩ := ih (i + 1) j h
        exact ⟨k + 1, by omega, by simpa using hpre⟩

theorem findSubstrGo_complete (pat : List Char) :
    ∀ hay i, (∃ k, pat.isPrefixOf (hay.drop k)) → ∃ j, findSubstrGo pat hay i = some j := by
  intro hay
  induction hay with
  | nil =>
      intro i hk
      obtain ⟨k, hp⟩ := hk
      rw [List.drop_nil] at hp
      exact ⟨i, by simp [findSubstrGo, hp]⟩
  | cons c t ih =>
      intro i hk
      by_cases hp : pat.isPrefixOf (c :: t)
      · exact ⟨i, by simp [findSubstrGo, hp]⟩
      · obtain ⟨k, hpk⟩ := hk
        have hk' : ∃ k', pat.isPrefixOf (t.drop k') := by
          cases k with
          | zero => exact absurd (by simpa using hpk) hp
          | succ k' => exact ⟨k', by simpa using hpk⟩
        obtain ⟨j, hj⟩ := ih (i + 1) hk'
        exact ⟨j, by simp [findSubstrGo, hp, hj]⟩

theorem prefix_reconstruct {pat l : List Char} (h : pat.isPrefixOf l) :
    l = pat ++ l.drop pat.length := by
  obtain ⟨t, ht⟩ := List.isPrefixOf_iff_prefix.mp h
  rw [← ht, List.drop_left]

theorem extSuffix_spec {last ext : List Char} (h : extSuffix last = some ext) :
    ∃ pre, last = pre ++ ext := by
  unfold extSuffix at h
  set A := last.reverse.takeWhile (fun c => c ≠ '.') with hA
  by_cases h0 : A.length = 0
  · rw [if_pos h0] at h
    exact absurd h (by simp)
  · rw [if_neg h0] at h
    by_cases hdot : last.reverse.get? A.length = some '.'
    · rw [if_pos hdot] at h
      injection h with hext
      have hsplit : A ++ last.reverse.dropWhile (fun c => c ≠ '.') = last.reverse := by
        rw [hA]; exact List.takeWhile_append_dropWhile _ _
      set B := last.reverse.dropWhile (fun c => c ≠ '.') with hB
      have hget : (A ++ B).get? A.length = B.get? 0 := by
        rw [List.get?_eq_getElem?, List.get?_eq_getElem?,
            List.getElem?_append_right (by omega)]
        simp
      rw [← hsplit, hget] at hdot
      obtain ⟨rest', hrest'⟩ : ∃ rest', B = '.' :: rest' := by
        cases hr : B with
        | nil => rw [hr] at hdot; simp at hdot
        | cons a r =>
            rw [hr] at hdot
            simp only [List.get?_cons_zero, Option.some.injEq] at hdot
            exact ⟨r, by rw [hdot]⟩
      refine ⟨rest'.reverse, ?_⟩
      have h1 : last = (A ++ B).reverse := by rw [hsplit, List.reverse_reverse]
      rw [h1, hrest', List.reverse_append, List.reverse_cons, ← hext]
      simp [List.append_assoc]
    · rw [if_neg hdot] at h
      exact absurd h (by simp)

/-- C3 amended.  When the final path component has digit runs, the
resolver splices the zero-padded index over a run of maximal numeric
value, the first such run on ties, leaving every other character in
place; when it has none, the fallback inserts `_<idx>` at the first
occurrence of the extension substring (the extension's own position
whenever that substring occurs only once), or appends `_<idx>` at the
end when there is no extension. -/
theorem c3_amended_resolver (last : String) (idx : Nat) (hd : '$' ∉ last.data) :
    resolverAmendedStatement last idx := by
  constructor
  · intro r rs hruns
    have hpick : pickBestRun (digitRuns last.data) = some (rs.foldl bestRunStep r) := by
      rw [hruns]; rfl
    obtain ⟨l1, l2, hdec, hlt⟩ := foldl_first_max rs r
    refine ⟨(rs.foldl bestRunStep r).1, (rs.foldl bestRunStep r).2, l1, l2, ?_, ?_, ?_, ?_⟩
    · rw [hruns, hdec]
    · exact hlt
    · intro x hx
      rw [hruns] at hx
      rcases List.mem_cons.mp hx with rfl | hx'
      · exact natOfDigits_le_foldl rs x
      · exact mem_le_foldl rs r x hx'
    · unfold buildFilenameForIndex resolveSegmentFilename
      rw [hpick]
  · intro hempty
    have hpicknone : pickBestRun (digitRuns last.data) = none := by rw [hempty]; rfl
    constructor
    · intro ext hext
      obtain ⟨pre, hpre⟩ := extSuffix_spec hext
      have hocc : ∃ k, ext.isPrefixOf (last.data.drop k) := by
        refine ⟨pre.length, ?_⟩
        rw [hpre, List.drop_left]
        exact List.isPrefixOf_iff_prefix.mpr (List.prefix_refl ext)
      obtain ⟨j, hj⟩ := findSubstrGo_complete ext last.data 0 hocc
      refine ⟨j, hj, ?_⟩
      simp only [buildFilenameForIndex, resolveSegmentFilename, hpicknone, hext,
        jsReplaceFirst, hj]
      have hrep : '$' ∉ '_' :: (Nat.repr idx).data ++ ext := by
        intro hmem
        rcases List.mem_append.mp hmem with h1 | h4
        · rcases List.mem_cons.mp h1 with h2 | h3
          · exact absurd h2 (by decide)
          · exact natRepr_no_dollar idx h3
        · exact hd (by rw [hpre]; exact List.mem_append_right _ h4)
      rw [dollarSubst_id _ _ _ _ hrep]
      obtain ⟨k, hk, hprefix⟩ := findSubstrGo_sound ext last.data 0 j hj
      have hkj : k = j := by omega
      rw [hkj] at hprefix
      have hdropj : last.data.drop j = ext ++ (last.data.drop j).drop ext.length :=
        prefix_reconstruct hprefix
      have hdd : (last.data.drop j).drop ext.length = last.data.drop (j + ext.length) := by
        rw [List.drop_drop]
      apply congrArg String.mk
      conv_rhs => rw [hdropj, hdd]
      simp [List.append_assoc]
    · intro hnone
      simp only [buildFilenameForIndex, resolveSegmentFilename, hpicknone, hnone]

/-- Witness for C3: the template filename `segment-41-v1-a1.ts`
contains no dollar character, so the amended resolver law applies to
it at index 7. -/
theorem c3_amended_resolver_witness :
    ('$' ∉ "segment-41-v1-a1.ts".data) ∧ resolverAmendedStatement "segment-41-v1-a1.ts" 7 :=
  ⟨by decide, c3_amended_resolver "segment-41-v1-a1.ts" 7 (by decide)⟩

end Coursati
